import Mathlib

deriving instance DecidableEq for Except

/-!
Verification of the core memory store engine (`src/memoryStore.ts`) of the
copilot-memory-store repository.

Strings of the TypeScript source are modelled as `List Char`; ISO timestamp
strings are modelled by their parsed value (milliseconds since the epoch, an
`Int`), since the source only ever consumes them through `Date.parse` /
`Date.now`.  Effectful operations (`addMemory`, `softDeleteById`, `purge`)
are modelled as pure state-passing functions on the record collection; a
`wrote` flag records whether `atomicWrite` was invoked.  Randomness
(`makeId`) and the clock (`Date.now`) are passed in as parameters.
-/

namespace CMS

/-- Strings are modelled as lists of characters. -/
abbrev Str := List Char

/-- The JavaScript whitespace class `\s`, restricted to the four common
whitespace characters (space, tab, newline, carriage return). -/
def isSpace (c : Char) : Bool :=
  c.toNat == 32 || c.toNat == 9 || c.toNat == 10 || c.toNat == 13

/-- ASCII lower-casing of one character, modelling
`String.prototype.toLowerCase` on the character range the store manipulates. -/
def toLowerC (c : Char) : Char :=
  if 65 ≤ c.toNat ∧ c.toNat ≤ 90 then Char.ofNat (c.toNat + 32) else c

/-- `s.toLowerCase()`. -/
def lower (s : Str) : Str := s.map toLowerC

/-- `s.trim()`: strip leading and trailing whitespace. -/
def trimStr (s : Str) : Str :=
  ((s.dropWhile isSpace).reverse.dropWhile isSpace).reverse

/-- `s.split(/\s+/).filter(Boolean)`: the maximal runs of non-whitespace
characters of `s`, in order. -/
def splitWs : Str → List Str
  | [] => []
  | c :: cs =>
    if isSpace c then splitWs cs
    else (c :: cs.takeWhile (fun d => !isSpace d)) :: splitWs (cs.dropWhile (fun d => !isSpace d))
termination_by s => s.length
decreasing_by
  · simp
  · have h := (List.dropWhile_sublist (l := cs) (p := fun d => !isSpace d)).length_le
    simp only [List.length_cons]
    omega

/-- Number of non-overlapping left-to-right occurrences of `tok` in a string,
modelling `text.match(new RegExp(escapeRe(tok), "g"))?.length || 0` from
`scoreRecord`.  (On a match the scan resumes after the matched text, which for
a non-empty `tok` is `(c :: rest).drop tok.length = rest.drop (tok.length - 1)`.) -/
def countOccs (tok : Str) : Str → Nat
  | [] => 0
  | c :: rest =>
    if tok.isPrefixOf (c :: rest) && !tok.isEmpty then
      1 + countOccs tok (rest.drop (tok.length - 1))
    else
      countOccs tok rest
termination_by s => s.length
decreasing_by
  · simp only [List.length_cons, List.length_drop]
    omega
  · simp

/-- `hay.includes(needle)` on strings (substring containment). -/
def includesStr (needle : Str) : Str → Bool
  | [] => needle.isEmpty
  | c :: rest => needle.isPrefixOf (c :: rest) || includesStr needle rest

/-- `s.split("\n")` (every segment, including empty ones). -/
def splitNl : Str → List Str
  | [] => [[]]
  | c :: cs =>
    if c = '\n' then [] :: splitNl cs
    else
      match splitNl cs with
      | [] => [[c]]
      | s :: rest => (c :: s) :: rest

/-- The lines of a newline-terminated string: `s.split("\n")` without the
final empty segment produced by the trailing newline. -/
def linesOf (s : Str) : List Str := (splitNl s).dropLast

/-- `lines.join("\n")`. -/
def joinNl : List Str → Str
  | [] => []
  | [l] => l
  | l :: l' :: ls => l ++ '\n' :: joinNl (l' :: ls)

/-- `A single memory record stored in the JSON file` (`MemoryRecord` in the
source).  `createdAt`/`updatedAt`/`deletedAt` hold the parsed timestamp;
`deletedAt = none` models the JSON `null`. -/
structure MemoryRecord where
  id : Str
  text : Str
  tags : List Str
  keywords : List Str
  createdAt : Int
  updatedAt : Int
  deletedAt : Option Int
deriving DecidableEq, Repr

/-- `A search result with relevance score` (`SearchHit` in the source). -/
structure SearchHit where
  id : Str
  text : Str
  tags : List Str
  keywords : List Str
  createdAt : Int
  updatedAt : Int
  score : ℚ
deriving DecidableEq, Repr

/-- `Common English stop words filtered out during keyword extraction`
(`STOP_WORDS` in the source). -/
def STOP_WORDS : List Str :=
  (["i", "me", "my", "we", "our", "you", "your", "he", "she", "it", "they", "them",
    "a", "an", "the", "this", "that", "these", "those",
    "is", "am", "are", "was", "were", "be", "been", "being",
    "have", "has", "had", "do", "does", "did", "will", "would", "could", "should",
    "can", "may", "might", "must", "shall",
    "and", "or", "but", "if", "then", "else", "when", "where", "why", "how",
    "all", "each", "every", "both", "few", "more", "most", "some", "any", "no",
    "not", "only", "own", "same", "so", "than", "too", "very",
    "just", "also", "now", "here", "there", "about", "after", "before",
    "to", "from", "up", "down", "in", "out", "on", "off", "over", "under",
    "with", "without", "for", "of", "at", "by", "as", "into", "through",
    "like", "want", "use", "using", "used", "prefer", "always", "never"]).map
    (fun s => s.toList)

/-- A character kept by the `replace(/[^a-z0-9\s-]/g, " ")` step of
`extractKeywords` (the text is already lower-cased at that point):
`a`-`z`, `0`-`9`, whitespace, or hyphen. -/
def keepChar (c : Char) : Bool :=
  (97 ≤ c.toNat && c.toNat ≤ 122) || (48 ≤ c.toNat && c.toNat ≤ 57) ||
    isSpace c || c.toNat == 45

/-- `text.replace(/[^a-z0-9\s-]/g, " ")`. -/
def stripPunct (s : Str) : Str :=
  s.map (fun c => if keepChar c then c else ' ')

/-- The `words` list of `extractKeywords`: lower-case, strip punctuation,
split on whitespace, drop tokens of length ≤ 2 or in the stop-word set. -/
def extractWords (text : Str) : List Str :=
  (splitWs (stripPunct (lower text))).filter
    (fun w => 2 < w.length && !(STOP_WORDS.contains w))

/-- One step of the frequency `Map`: bump the count of `w`, preserving
first-insertion order (JavaScript `Map` iteration order). -/
def bumpFreq (w : Str) : List (Str × Nat) → List (Str × Nat)
  | [] => [(w, 1)]
  | (k, n) :: rest => if k = w then (k, n + 1) :: rest else (k, n) :: bumpFreq w rest

/-- The frequency map of `extractKeywords` as an insertion-ordered
association list. -/
def freqOf (ws : List Str) : List (Str × Nat) :=
  ws.foldl (fun acc w => bumpFreq w acc) []

/-- Stable insert for a descending sort by a rational key, modelling the
stable `Array.prototype.sort` with comparator `(a, b) => key(b) - key(a)`:
an element moves past `y` only when its key is strictly below `y`'s. -/
def insertDescBy {α : Type} (key : α → ℚ) (x : α) : List α → List α
  | [] => [x]
  | y :: ys => if Rat.blt (key x) (key y) then y :: insertDescBy key x ys else x :: y :: ys

/-- Stable sort, descending by `key`. -/
def sortDescBy {α : Type} (key : α → ℚ) : List α → List α
  | [] => []
  | x :: xs => insertDescBy key x (sortDescBy key xs)

/-- `extractKeywords(text)`: frequency-count the filtered words, sort by
descending count (`.sort((a, b) => b[1] - a[1])`, stable), keep the top 10,
and return the words. -/
def extractKeywords (text : Str) : List Str :=
  ((sortDescBy (fun e => (e.2 : ℚ)) (freqOf (extractWords text))).take 10).map
    (fun e => e.1)

/-- `normalizeTags(tags)`: trim, lower-case, drop empties, de-duplicate
keeping first occurrence (JavaScript `Set` insertion order). -/
def normalizeTags (tags : List Str) : List Str :=
  tags.foldl
    (fun acc t =>
      let cleaned := lower (trimStr t)
      if cleaned = [] ∨ acc.contains cleaned then acc else acc ++ [cleaned])
    []

/-- Result of `addMemory`: the created record and the new on-disk collection. -/
structure AddResult where
  record : MemoryRecord
  records : List MemoryRecord
deriving DecidableEq, Repr

/-- `addMemory`: validate non-empty trimmed text, normalize tags, extract
keywords, append the new record and write.  `now` models `Date.now()` /
`nowIso()` and `newId` the random `makeId()`. -/
def addMemory (now : Int) (newId : Str) (records : List MemoryRecord)
    (text : Str) (tags : List Str) : Except Str AddResult :=
  let ntags := normalizeTags tags
  let t := trimStr text
  if t = [] then Except.error ("Cannot add an empty memory.".toList)
  else
    let r : MemoryRecord :=
      { id := newId, text := t, tags := ntags, keywords := extractKeywords t,
        createdAt := now, updatedAt := now, deletedAt := none }
    Except.ok ⟨r, records ++ [r]⟩

/-- Result of `softDeleteById`: the returned `{found, record?}` plus the
resulting on-disk collection and whether `atomicWrite` ran. -/
structure SoftDeleteResult where
  found : Bool
  record : Option MemoryRecord
  records : List MemoryRecord
  wrote : Bool
deriving DecidableEq, Repr

/-- `softDeleteById`: find the first record with the given id
(`findIndex`); if absent report `found = false` without writing; if present
and not yet tombstoned set `deletedAt`/`updatedAt` to now and write; if
already tombstoned report `found = true` without writing. -/
def softDeleteById (now : Int) (id : Str) : List MemoryRecord → SoftDeleteResult
  | [] => ⟨false, none, [], false⟩
  | r :: rest =>
    if r.id == id then
      if r.deletedAt.isSome then ⟨true, some r, r :: rest, false⟩
      else
        let r' : MemoryRecord := { r with deletedAt := some now, updatedAt := now }
        ⟨true, some r', r' :: rest, true⟩
    else
      let res := softDeleteById now id rest
      ⟨res.found, res.record, r :: res.records, res.wrote⟩

/-- Options of `purge` (the `match` criterion is named `matchText` here
because `match` is reserved in Lean). -/
structure PurgeOpts where
  id : Option Str
  matchText : Option Str
  tag : Option Str
  dryRun : Bool
deriving DecidableEq, Repr

/-- Result value of `purge`: `{purged, ids}`. -/
structure PurgeResult where
  purged : Nat
  ids : List Str
deriving DecidableEq, Repr

/-- `opts.id?.trim()` followed by the JavaScript truthiness test: an absent
option or one that trims to the empty string counts as not supplied. -/
def cleanOpt : Option Str → Option Str
  | none => none
  | some s => let t := trimStr s; if t = [] then none else some t

/-- `opts.tag?.trim().toLowerCase()` with the truthiness test. -/
def cleanOptLower (o : Option Str) : Option Str :=
  (cleanOpt o).map lower

/-- `purge`: fail when no criterion survives trimming, otherwise select the
predicate by the source's `if (id) ... else if (tag) ... else match` chain,
compute the matching ids, and (unless `dryRun`) keep only non-matching
records.  The returned list is the resulting on-disk collection. -/
def purge (opts : PurgeOpts) (records : List MemoryRecord) :
    Except Str (PurgeResult × List MemoryRecord) :=
  let id := cleanOpt opts.id
  let tag := cleanOptLower opts.tag
  let mtch := cleanOpt opts.matchText
  if id = none ∧ mtch = none ∧ tag = none then
    Except.error ("purge requires one of: --id, --match, --tag".toList)
  else
    let pred : MemoryRecord → Bool :=
      match id with
      | some i => fun r => r.id == i
      | none =>
        match tag with
        | some tg => fun r => (r.tags.map lower).contains tg
        | none =>
          let needle := lower (mtch.getD [])
          fun r => includesStr needle (lower r.text)
    let ids := (records.filter pred).map (fun r => r.id)
    if opts.dryRun then Except.ok (⟨ids.length, ids⟩, records)
    else Except.ok (⟨ids.length, ids⟩, records.filter (fun r => !pred r))

/-- The on-disk collection after a call to `purge`: unchanged when `purge`
throws (the criteria check precedes all file I/O in the source). -/
def purgeStore (opts : PurgeOpts) (records : List MemoryRecord) : List MemoryRecord :=
  match purge opts records with
  | Except.error _ => records
  | Except.ok (_, records') => records'

/-- `1000 * 60 * 60 * 24`, the milliseconds-per-day divisor of `scoreRecord`. -/
def DAY_MS : ℚ := 1000 * 60 * 60 * 24

/-- The recency bonus of `scoreRecord`:
`Math.max(0, 5 - Math.min(5, days / 30))` where
`days = (Date.now() - Date.parse(updatedAt)) / 86400000`. -/
def recencyBonus (now : Int) (r : MemoryRecord) : ℚ :=
  let ageMs : Int := now - r.updatedAt
  let days : ℚ := (ageMs : ℚ) / DAY_MS
  max 0 (5 - min 5 (days / 30))

/-- `scoreRecord(r, query)`: 0 for an empty trimmed query; otherwise, per
whitespace token of the lower-cased query, 5 per occurrence in the
lower-cased text, +8 on a case-insensitive tag match, +6 on an exact match
against a precomputed keyword; finally the recency bonus is added. -/
def scoreRecord (now : Int) (r : MemoryRecord) (query : Str) : ℚ :=
  let q := lower (trimStr query)
  if q = [] then 0
  else
    let text := lower r.text
    let tokens := splitWs q
    let tokScore : ℚ := tokens.foldl
      (fun acc tok =>
        let withHits := acc + (countOccs tok text : ℚ) * 5
        let withTag := if r.tags.any (fun t => lower t == tok) then withHits + 8 else withHits
        if r.keywords.any (fun k => k == tok) then withTag + 6 else withTag)
      0
    tokScore + recencyBonus now r

/-- Builds the `SearchHit` pushed by `search` for a surviving record. -/
def toHit (now : Int) (query : Str) (r : MemoryRecord) : SearchHit :=
  { id := r.id, text := r.text, tags := r.tags, keywords := r.keywords,
    createdAt := r.createdAt, updatedAt := r.updatedAt,
    score := scoreRecord now r query }

/-- `search(records, query, limit)`: skip tombstoned records and records
with score ≤ 0, sort descending by score (stable), truncate to
`Math.max(1, limit)`. -/
def search (now : Int) (records : List MemoryRecord) (query : Str) (limit : Int) :
    List SearchHit :=
  let hits := (records.filter
    (fun r => !r.deletedAt.isSome && !(decide (scoreRecord now r query ≤ 0)))).map
    (toHit now query)
  (sortDescBy (fun h => h.score) hits).take (max 1 limit).toNat

/-- `exportJson(records)` serializes the full `records` array
(`JSON.stringify(records, null, 2) + "\n"`, no filtering); this models the
sequence of records appearing in that output. -/
def exportJson (records : List MemoryRecord) : List MemoryRecord := records

/-- The hit line `- (${h.id})${tagStr} ${h.text}` of `compressDeterministic`,
with `tagStr` = `` [tag, tag]`` when tags are present. -/
def renderLine (h : SearchHit) : Str :=
  let tagStr : Str :=
    if h.tags ≠ [] then (" [").toList ++ List.intercalate ((", ").toList) h.tags ++ [']']
    else []
  ("- (").toList ++ h.id ++ [')'] ++ tagStr ++ [' '] ++ h.text

/-- The `lines` array built by `compressDeterministic`: title, blank line,
section header, then one line per hit. -/
def renderLines (hits : List SearchHit) : List Str :=
  ("# Copilot Context (auto)").toList :: [] :: ("## Relevant memory").toList ::
    hits.map renderLine

/-- The truncation loop of `compressDeterministic`: keep each line while the
running size (line length + 1 for the separator) stays within budget, and
stop at the first line that would exceed it. -/
def truncLines (budget : Nat) : List Str → Nat → List Str
  | [], _ => []
  | l :: ls, size =>
    if size + l.length + 1 > budget then []
    else l :: truncLines budget ls (size + l.length + 1)

/-- Result of `compressDeterministic` (`CompressResult` in the source). -/
structure CompressResult where
  markdown : Str
  included : List SearchHit
  budget : Nat
  used : Nat
deriving DecidableEq, Repr

/-- `compressDeterministic`: clamp the budget to ≥ 200, search with
`Math.max(1, limit)`, render the block; return it whole if within budget,
otherwise rebuild line-by-line under the budget.  Both renderings carry a
final trailing newline. -/
def compressDeterministic (now : Int) (records : List MemoryRecord) (query : Str)
    (budgetReq : Int) (limit : Int) : CompressResult :=
  let budget := (max 200 budgetReq).toNat
  let hits := search now records query (max 1 limit)
  let lines := renderLines hits
  let md := joinNl lines ++ ['\n']
  if md.length ≤ budget then ⟨md, hits, budget, md.length⟩
  else
    let out := truncLines budget lines 0
    let md2 := joinNl out ++ ['\n']
    ⟨md2, hits, budget, md2.length⟩

/-- The untruncated rendering of `compressDeterministic` (the `md` string it
compares against the budget). -/
def fullRender (now : Int) (records : List MemoryRecord) (query : Str)
    (limit : Int) : Str :=
  joinNl (renderLines (search now records query limit)) ++ ['\n']

/-- Spec formula, per-token contribution (spec §4.3 step 3): 5 per
case-insensitive occurrence of the token in the record text, plus 8 if any
tag equals the token case-insensitively, plus 6 if the token equals one of
the record's precomputed keywords.  Token comparisons are case-insensitive
throughout the scorer (the precomputed keywords are lower-case), so the
token is compared in lower case. -/
def specTokenPoints (r : MemoryRecord) (tok : Str) : ℚ :=
  (countOccs (lower tok) (lower r.text) : ℚ) * 5 +
    (if ∃ t ∈ r.tags, lower t = lower tok then 8 else 0) +
    (if lower tok ∈ r.keywords then 6 else 0)

/-- Spec formula for the relevance score (spec §4.3): 0 when the trimmed
query is empty; otherwise the sum over the whitespace-separated query tokens
of their contributions, plus the recency bonus
`max(0, 5 − min(5, age_days / 30))`. -/
def specScore (now : Int) (r : MemoryRecord) (query : Str) : ℚ :=
  if trimStr query = [] then 0
  else ((splitWs (trimStr query)).map (specTokenPoints r)).sum + recencyBonus now r

/-- Number of purge criteria supplied, after trimming (truthiness of the
trimmed values, as in the source's `if (!id && !match && !tag)`). -/
def suppliedCriteria (opts : PurgeOpts) : Nat :=
  (if cleanOpt opts.id = none then 0 else 1) +
    (if cleanOptLower opts.tag = none then 0 else 1) +
    (if cleanOpt opts.matchText = none then 0 else 1)

/-- The purge options with only the highest-precedence supplied criterion
kept: the exact-id criterion if present, otherwise the tag criterion,
otherwise the substring criterion (claim C9's precedence). -/
def reduceOpts (opts : PurgeOpts) : PurgeOpts :=
  if cleanOpt opts.id ≠ none then { opts with matchText := none, tag := none }
  else if cleanOptLower opts.tag ≠ none then { opts with id := none, matchText := none }
  else { opts with id := none, tag := none }

/-- The budget cost of a line list in the truncation loop: each line counts
its length plus 1 for the separator. -/
def linesSumLen (ls : List Str) : Nat :=
  (ls.map (fun l => l.length + 1)).sum

/-- Fixture: an active record with fresh timestamps, used by witnesses. -/
def recA : MemoryRecord :=
  { id := ("m_a").toList, text := ("remember the dark mode preference").toList,
    tags := [("ui").toList], keywords := [("dark").toList],
    createdAt := 0, updatedAt := 0, deletedAt := none }

/-- Fixture: a tombstoned record, used by witnesses. -/
def recDel : MemoryRecord :=
  { id := ("m_d").toList, text := ("old forgotten note").toList,
    tags := [], keywords := [],
    createdAt := 0, updatedAt := 0, deletedAt := some 5 }

/-- Fixture: the record created by adding the text `hello world` with no
tags to an empty store (id `m1`, time 0), used by the C8 witness. -/
def recW : MemoryRecord :=
  { id := ("m1").toList, text := ("hello world").toList, tags := [],
    keywords := [("hello").toList, ("world").toList],
    createdAt := 0, updatedAt := 0, deletedAt := none }

/-- Fixture: the result of that add, used by the C8 witness. -/
def addResW : AddResult :=
  { record := recW, records := [recW] }

/-! ### Theorems -/

/-- C1 (code_bug evidence): the search engine returns a hit for a freshly
updated record on a query none of whose tokens contributes anything: the
score equals the recency bonus alone (all token-based contributions are
zero), yet the record is returned by `search`.  The spec demands that such a
record be excluded ("recency bonus alone, on an unmatched query, must not
produce a spurious hit"), and `scoreRecord`'s own doc comment says
`0 = no match`; the code instead adds the recency bonus unconditionally and
filters only on `score ≤ 0`. -/
theorem c1_recency_alone_produces_hit :
    ((splitWs (trimStr (("zzz").toList))).map (specTokenPoints recA)).sum = 0 ∧
    scoreRecord 0 recA (("zzz").toList) = recencyBonus 0 recA ∧
    recencyBonus 0 recA = 5 ∧
    search 0 [recA] (("zzz").toList) 10 = [toHit 0 (("zzz").toList) recA] := by
  with_unfolding_all decide

/-- C2 (counterexample): calling purge with both a tag and a substring
criterion supplied does not fail with `InvalidCriteria`; it succeeds. -/
theorem c2_counterexample :
    purge ⟨none, some (("x").toList), some (("t").toList), false⟩ [recA] =
      Except.ok (⟨0, []⟩, [recA]) := by
  decide

/-- C2 (amended): calling purge with zero criteria supplied (all criteria
empty after trimming) fails with the invalid-criteria error before any file
I/O occurs and leaves the stored record collection unchanged. -/
theorem c2_zero_criteria_fails (opts : PurgeOpts) (records : List MemoryRecord)
    (h1 : cleanOpt opts.id = none) (h2 : cleanOptLower opts.tag = none)
    (h3 : cleanOpt opts.matchText = none) :
    purge opts records =
      Except.error (("purge requires one of: --id, --match, --tag").toList) ∧
    purgeStore opts records = records := by
  have hp : purge opts records =
      Except.error (("purge requires one of: --id, --match, --tag").toList) := by
    unfold purge
    simp [h1, h2, h3]
  exact ⟨hp, by simp [purgeStore, hp]⟩

/-- Witness for `c2_zero_criteria_fails` at concrete inputs: an id that is
only whitespace and a tag that is empty count as not supplied. -/
theorem c2_zero_criteria_fails_witness :
    cleanOpt (some (("  ").toList)) = none ∧
    cleanOptLower (some (("").toList)) = none ∧
    cleanOpt (none : Option Str) = none ∧
    (purge ⟨some (("  ").toList), none, some (("").toList), false⟩ [recA] =
        Except.error (("purge requires one of: --id, --match, --tag").toList) ∧
      purgeStore ⟨some (("  ").toList), none, some (("").toList), false⟩ [recA] = [recA]) :=
  ⟨by decide, by decide, by decide,
    c2_zero_criteria_fails ⟨some (("  ").toList), none, some (("").toList), false⟩ [recA]
      (by decide) (by decide) (by decide)⟩

/-- C10: soft-deleting an id absent from the store reports `found = false`
with no record, performs no write, and leaves the collection unchanged. -/
theorem c10_softDelete_absent (now : Int) (id : Str) (records : List MemoryRecord)
    (h : ∀ r ∈ records, r.id ≠ id) :
    softDeleteById now id records = ⟨false, none, records, false⟩ := by
  induction records with
  | nil => rfl
  | cons r rest ih =>
    have hr : (r.id == id) = false := by
      have := h r (List.mem_cons_self r rest)
      simpa using this
    have ih' := ih (fun x hx => h x (List.mem_cons_of_mem _ hx))
    simp [softDeleteById, hr, ih']

/-- Witness for `c10_softDelete_absent` at a concrete store and id. -/
theorem c10_softDelete_absent_witness :
    (∀ r ∈ [recA], r.id ≠ (("nope").toList)) ∧
    softDeleteById 7 (("nope").toList) [recA] = ⟨false, none, [recA], false⟩ :=
  ⟨by decide, c10_softDelete_absent 7 (("nope").toList) [recA] (by decide)⟩

/-- C6: soft-delete is idempotent.  When the id is present, both calls
report `found = true`, the second call performs no write, leaves the
collection exactly as the first call left it (so the `deletedAt` set by the
first call is never overwritten), and returns the same record. -/
theorem c6_softDelete_idempotent (now1 now2 : Int) (id : Str)
    (records : List MemoryRecord) (h : ∃ r ∈ records, r.id = id) :
    (softDeleteById now1 id records).found = true ∧
    (softDeleteById now2 id (softDeleteById now1 id records).records).found = true ∧
    (softDeleteById now2 id (softDeleteById now1 id records).records).wrote = false ∧
    (softDeleteById now2 id (softDeleteById now1 id records).records).records =
      (softDeleteById now1 id records).records ∧
    (softDeleteById now2 id (softDeleteById now1 id records).records).record =
      (softDeleteById now1 id records).record := by
  induction records with
  | nil => simp at h
  | cons r rest ih =>
    by_cases hid : (r.id == id) = true
    · cases hdel : r.deletedAt.isSome with
      | true => simp [softDeleteById, hid, hdel]
      | false => simp [softDeleteById, hid, hdel]
    · have hid' : (r.id == id) = false := by simpa using hid
      have hrest : ∃ x ∈ rest, x.id = id := by
        rcases h with ⟨x, hx, hxid⟩
        rcases List.mem_cons.mp hx with rfl | hxrest
        · exact absurd (by simpa using hxid : (x.id == id) = true) (by simpa using hid)
        · exact ⟨x, hxrest, hxid⟩
      obtain ⟨h1, h2, h3, h4, h5⟩ := ih hrest
      simp [softDeleteById, hid', h1, h2, h3, h4, h5]

/-- Witness for `c6_softDelete_idempotent` at a concrete store and id. -/
theorem c6_softDelete_idempotent_witness :
    (∃ r ∈ [recA], r.id = (("m_a").toList)) ∧
    ((softDeleteById 3 (("m_a").toList) [recA]).found = true ∧
      (softDeleteById 9 (("m_a").toList)
          (softDeleteById 3 (("m_a").toList) [recA]).records).found = true ∧
      (softDeleteById 9 (("m_a").toList)
          (softDeleteById 3 (("m_a").toList) [recA]).records).wrote = false ∧
      (softDeleteById 9 (("m_a").toList)
          (softDeleteById 3 (("m_a").toList) [recA]).records).records =
        (softDeleteById 3 (("m_a").toList) [recA]).records ∧
      (softDeleteById 9 (("m_a").toList)
          (softDeleteById 3 (("m_a").toList) [recA]).records).record =
        (softDeleteById 3 (("m_a").toList) [recA]).record) :=
  ⟨by decide, c6_softDelete_idempotent 3 9 (("m_a").toList) [recA] (by decide)⟩

/-- Membership is preserved by the stable descending insert. -/
theorem mem_insertDescBy {α : Type} (key : α → ℚ) (x a : α) (l : List α) :
    a ∈ insertDescBy key x l ↔ a = x ∨ a ∈ l := by
  induction l with
  | nil => simp [insertDescBy]
  | cons y ys ih =>
    by_cases hb : Rat.blt (key x) (key y) = true
    · simp only [insertDescBy, hb, if_true, List.mem_cons, ih]
      tauto
    · simp only [insertDescBy, hb, if_false, Bool.false_eq_true, List.mem_cons]

/-- Membership is preserved by the stable descending sort. -/
theorem mem_sortDescBy {α : Type} (key : α → ℚ) (a : α) (l : List α) :
    a ∈ sortDescBy key l ↔ a ∈ l := by
  induction l with
  | nil => simp [sortDescBy]
  | cons x xs ih => simp [sortDescBy, mem_insertDescBy, ih]

/-- Every hit returned by `search` is built from a stored record that is not
tombstoned. -/
theorem search_hit_sourced (now : Int) (records : List MemoryRecord) (query : Str)
    (limit : Int) :
    ∀ h ∈ search now records query limit,
      ∃ rec ∈ records, rec.deletedAt = none ∧ h = toHit now query rec := by
  intro h hh
  unfold search at hh
  have h1 := List.mem_of_mem_take hh
  rw [mem_sortDescBy] at h1
  obtain ⟨rec, hrec, rfl⟩ := List.mem_map.mp h1
  obtain ⟨hmem, hcond⟩ := List.mem_filter.mp hrec
  refine ⟨rec, hmem, ?_, rfl⟩
  simp only [Bool.and_eq_true] at hcond
  have : rec.deletedAt.isSome = false := by simpa using hcond.1
  exact Option.not_isSome_iff_eq_none.mp (by simp [this])

/-- The `included` field of `compressDeterministic` is exactly the result of
`search` with the clamped limit, in both budget branches. -/
theorem compress_included (now : Int) (records : List MemoryRecord) (query : Str)
    (budgetReq limit : Int) :
    (compressDeterministic now records query budgetReq limit).included =
      search now records query (max 1 limit) := by
  dsimp only [compressDeterministic]
  split <;> rfl

/-- C5: a tombstoned record never appears among the hits of `search` nor in
the records included by `compressDeterministic` (every hit is built from a
non-tombstoned stored record), but it always appears in the output of
`exportJson`. -/
theorem c5_tombstone_visibility (now : Int) (records : List MemoryRecord)
    (query : Str) (limit budgetReq : Int) (r : MemoryRecord)
    (hmem : r ∈ records) (hdel : r.deletedAt.isSome = true) :
    (∀ h ∈ search now records query limit,
        ∃ rec ∈ records, rec.deletedAt = none ∧ h = toHit now query rec) ∧
    (∀ h ∈ (compressDeterministic now records query budgetReq limit).included,
        ∃ rec ∈ records, rec.deletedAt = none ∧ h = toHit now query rec) ∧
    r ∈ exportJson records := by
  refine ⟨search_hit_sourced now records query limit, ?_, hmem⟩
  rw [compress_included]
  exact search_hit_sourced now records query (max 1 limit)

/-- Witness for `c5_tombstone_visibility`: a store holding an active and a
tombstoned record. -/
theorem c5_tombstone_visibility_witness :
    recDel ∈ [recA, recDel] ∧ recDel.deletedAt.isSome = true ∧
    ((∀ h ∈ search 0 [recA, recDel] (("note").toList) 10,
        ∃ rec ∈ [recA, recDel], rec.deletedAt = none ∧ h = toHit 0 (("note").toList) rec) ∧
      (∀ h ∈ (compressDeterministic 0 [recA, recDel] (("note").toList) 300 10).included,
        ∃ rec ∈ [recA, recDel], rec.deletedAt = none ∧ h = toHit 0 (("note").toList) rec) ∧
      recDel ∈ exportJson [recA, recDel]) :=
  ⟨by decide, by decide,
    c5_tombstone_visibility 0 [recA, recDel] (("note").toList) 10 300 recDel
      (by decide) (by decide)⟩

/-- `cleanOpt` of an absent option is absent. -/
theorem cleanOpt_none : cleanOpt none = none := rfl

/-- `cleanOptLower` of an absent option is absent. -/
theorem cleanOptLower_none : cleanOptLower none = none := rfl

/-- C9: when more than one purge criterion survives trimming, purge raises
no error and behaves exactly as if only the highest-precedence criterion had
been supplied: exact id first, then tag, then substring. -/
theorem c9_purge_precedence (opts : PurgeOpts) (records : List MemoryRecord)
    (h : 1 < suppliedCriteria opts) :
    (purge opts records).isOk = true ∧
    purge opts records = purge (reduceOpts opts) records := by
  rcases hid : cleanOpt opts.id with _ | i
  · rcases htag : cleanOptLower opts.tag with _ | tg
    · exfalso
      rcases hm : cleanOpt opts.matchText with _ | m <;>
        simp [suppliedCriteria, hid, htag, hm] at h
    · constructor
      · cases hdr : opts.dryRun <;> simp [purge, hid, htag, hdr, Except.isOk, Except.toBool]
      · have hred : reduceOpts opts = { opts with id := none, matchText := none } := by
          simp [reduceOpts, hid, htag]
        rw [hred]
        simp [purge, hid, htag, cleanOpt_none, cleanOptLower_none]
  · constructor
    · cases hdr : opts.dryRun <;> simp [purge, hid, hdr, Except.isOk, Except.toBool]
    · have hred : reduceOpts opts = { opts with matchText := none, tag := none } := by
        simp [reduceOpts, hid]
      rw [hred]
      simp [purge, hid, cleanOpt_none, cleanOptLower_none]

/-- Witness for `c9_purge_precedence`: id and substring criteria both
supplied; the id criterion wins. -/
theorem c9_purge_precedence_witness :
    1 < suppliedCriteria ⟨some (("m_a").toList), some (("x").toList), none, true⟩ ∧
    ((purge ⟨some (("m_a").toList), some (("x").toList), none, true⟩ [recA]).isOk = true ∧
      purge ⟨some (("m_a").toList), some (("x").toList), none, true⟩ [recA] =
        purge (reduceOpts ⟨some (("m_a").toList), some (("x").toList), none, true⟩) [recA]) :=
  ⟨by decide,
    c9_purge_precedence ⟨some (("m_a").toList), some (("x").toList), none, true⟩ [recA]
      (by decide)⟩

/-- Length of a newline-joined, newline-terminated block: each line costs
its length plus one separator character. -/
theorem joinNl_nl_length (ls : List Str) (h : ls ≠ []) :
    (joinNl ls ++ ['\n']).length = linesSumLen ls := by
  induction ls with
  | nil => exact absurd rfl h
  | cons l ls ih =>
    cases ls with
    | nil => simp [joinNl, linesSumLen]
    | cons l' ls' =>
      have ih' := ih (by simp)
      simp only [joinNl, linesSumLen, List.map_cons, List.sum_cons, List.length_append,
        List.length_cons] at ih' ⊢
      omega

/-- The truncation loop never lets the running size exceed the budget. -/
theorem truncLines_size_le (budget : Nat) (ls : List Str) (size : Nat)
    (h : size ≤ budget) :
    size + linesSumLen (truncLines budget ls size) ≤ budget := by
  induction ls generalizing size with
  | nil => simpa [truncLines, linesSumLen]
  | cons l ls ih =>
    by_cases hfit : size + l.length + 1 > budget
    · simp [truncLines, hfit, linesSumLen]
      omega
    · have hle : size + l.length + 1 ≤ budget := by omega
      have := ih (size + l.length + 1) hle
      simp only [truncLines, hfit, if_false] at *
      simp only [linesSumLen, List.map_cons, List.sum_cons] at *
      omega

/-- C3: for every budget ≥ 200, the text produced by
`compressDeterministic` — trailing newline included — has length at most the
requested budget. -/
theorem c3_budget_respected (now : Int) (records : List MemoryRecord)
    (query : Str) (limit : Int) (budgetReq : Int) (h : 200 ≤ budgetReq) :
    ((compressDeterministic now records query budgetReq limit).markdown.length : Int)
      ≤ budgetReq := by
  have hmax : max 200 budgetReq = budgetReq := max_eq_right h
  have hnat : ((max 200 budgetReq).toNat : Int) = budgetReq := by
    rw [hmax]
    exact Int.toNat_of_nonneg (by omega)
  have hbig : 200 ≤ (max 200 budgetReq).toNat := by omega
  dsimp only [compressDeterministic]
  split
  · rename_i hfits
    simp only
    omega
  · rename_i hover
    simp only
    rcases htr : truncLines (max 200 budgetReq).toNat (renderLines (search now records query (max 1 limit))) 0
      with _ | ⟨l, ls⟩
    · simp [htr, joinNl]
      omega
    · have hsz := truncLines_size_le (max 200 budgetReq).toNat
        (renderLines (search now records query (max 1 limit))) 0 (by omega)
      rw [htr] at hsz
      have hlen := joinNl_nl_length (l :: ls) (by simp)
      rw [hlen]
      omega

/-- Witness for `c3_budget_respected` at a concrete store and budget. -/
theorem c3_budget_respected_witness :
    (200 : Int) ≤ 200 ∧
    ((compressDeterministic 0 [recA, recDel] (("dark mode").toList) 200 25).markdown.length : Int)
      ≤ 200 :=
  ⟨by decide, c3_budget_respected 0 [recA, recDel] (("dark mode").toList) 25 200 (by decide)⟩

/-- `split("\n")` never yields an empty list of segments. -/
theorem splitNl_ne_nil (s : Str) : splitNl s ≠ [] := by
  cases s with
  | nil => simp [splitNl]
  | cons c cs =>
    by_cases hc : c = '\n'
    · simp [splitNl, hc]
    · rcases hcs : splitNl cs with _ | ⟨x, rest⟩ <;> simp [splitNl, hc, hcs]

/-- Splitting on newlines distributes over a newline join point. -/
theorem splitNl_append_nl (a r : Str) :
    splitNl (a ++ '\n' :: r) = splitNl a ++ splitNl r := by
  induction a with
  | nil => simp [splitNl]
  | cons c cs ih =>
    by_cases hc : c = '\n'
    · subst hc
      simp [splitNl, ih]
    · rcases hcs : splitNl cs with _ | ⟨x, rest⟩
      · exact absurd hcs (splitNl_ne_nil cs)
      · simp only [List.cons_append, splitNl, hc, if_false, List.append_eq]
        rw [ih, hcs]
        simp

/-- Joining two non-empty line lists joins their joins with a newline. -/
theorem joinNl_append (a b : List Str) (ha : a ≠ []) (hb : b ≠ []) :
    joinNl (a ++ b) = joinNl a ++ '\n' :: joinNl b := by
  induction a with
  | nil => exact absurd rfl ha
  | cons x xs ih =>
    cases xs with
    | nil =>
      cases b with
      | nil => exact absurd rfl hb
      | cons y bs => simp [joinNl]
    | cons x' xs' =>
      have ih' := ih (by simp)
      simp only [List.cons_append] at ih' ⊢
      simp [joinNl, ih']

/-- The truncation loop keeps an initial segment of the line list. -/
theorem truncLines_initial (budget : Nat) (ls : List Str) (size : Nat) :
    ∃ rest, ls = truncLines budget ls size ++ rest := by
  induction ls generalizing size with
  | nil => exact ⟨[], rfl⟩
  | cons l ls ih =>
    by_cases hfit : size + l.length + 1 > budget
    · exact ⟨l :: ls, by simp [truncLines, hfit]⟩
    · obtain ⟨rest, hrest⟩ := ih (size + l.length + 1)
      refine ⟨rest, ?_⟩
      simp only [truncLines, hfit, if_false, List.cons_append]
      exact congrArg (l :: ·) hrest

/-- With the clamped budget (≥ 200) the truncation loop always keeps at
least the title line of the rendered block. -/
theorem truncLines_renderLines_ne_nil (budget : Nat) (h : 200 ≤ budget)
    (hits : List SearchHit) : truncLines budget (renderLines hits) 0 ≠ [] := by
  have hlen : (("# Copilot Context (auto)").toList).length = 24 := by decide
  simp only [renderLines, truncLines, hlen]
  have : ¬ (0 + 24 + 1 > budget) := by omega
  simp [this]

/-- Decomposition of the lines of a joined block at a line-list split
point: the lines of the whole block are the lines of the first part followed
by the lines of the second. -/
theorem linesOf_join_decomp (out suffix : List Str) (hout : out ≠ [])
    (hsuf : suffix ≠ []) :
    linesOf (joinNl (out ++ suffix) ++ ['\n']) =
      linesOf (joinNl out ++ ['\n']) ++ (splitNl (joinNl suffix ++ ['\n'])).dropLast := by
  rw [joinNl_append out suffix hout hsuf]
  have hshape : (joinNl out ++ '\n' :: joinNl suffix) ++ ['\n']
      = joinNl out ++ '\n' :: (joinNl suffix ++ ['\n']) := by simp
  unfold linesOf
  rw [hshape, splitNl_append_nl]
  have e1 : splitNl (joinNl out ++ ['\n']) = splitNl (joinNl out) ++ [[]] := by
    have h' := splitNl_append_nl (joinNl out) []
    simpa [splitNl] using h'
  rw [e1, List.dropLast_concat,
    List.dropLast_append_of_ne_nil _ (splitNl_ne_nil (joinNl suffix ++ ['\n']))]

/-- C4: the compressed text, split on line breaks, is an initial segment of
the lines of the untruncated rendering — truncation only drops whole
trailing lines, never part of a line. -/
theorem c4_truncation_whole_lines (now : Int) (records : List MemoryRecord)
    (query : Str) (budgetReq limit : Int) :
    ∃ rest, linesOf (fullRender now records query (max 1 limit)) =
      linesOf ((compressDeterministic now records query budgetReq limit).markdown)
        ++ rest := by
  dsimp only [compressDeterministic, fullRender]
  split
  · exact ⟨[], by simp⟩
  · obtain ⟨restL, hrest⟩ := truncLines_initial (max 200 budgetReq).toNat
      (renderLines (search now records query (max 1 limit))) 0
    rcases restL with _ | ⟨x, rs⟩
    · refine ⟨[], ?_⟩
      rw [List.append_nil] at hrest
      simp only
      rw [← hrest]
      simp
    · have hbig : 200 ≤ (max 200 budgetReq).toNat := by omega
      have hout : truncLines (max 200 budgetReq).toNat
          (renderLines (search now records query (max 1 limit))) 0 ≠ [] :=
        truncLines_renderLines_ne_nil _ hbig _
      refine ⟨(splitNl (joinNl (x :: rs) ++ ['\n'])).dropLast, ?_⟩
      simp only
      conv_lhs => rw [hrest]
      exact linesOf_join_decomp _ (x :: rs) hout (by simp)

/-- Round trip through `Char.ofNat` for code points below the surrogate
range. -/
theorem charOfNat_toNat {n : Nat} (h : n < 55296) : (Char.ofNat n).toNat = n := by
  have hv : n.isValidChar := Or.inl h
  unfold Char.ofNat
  rw [dif_pos hv]
  rfl

/-- The code point of a lower-cased character. -/
theorem toLowerC_toNat (c : Char) :
    (toLowerC c).toNat =
      if 65 ≤ c.toNat ∧ c.toNat ≤ 90 then c.toNat + 32 else c.toNat := by
  unfold toLowerC
  split
  · rename_i h
    rw [charOfNat_toNat (by omega)]
  · rfl

/-- Lower-casing neither creates nor destroys whitespace. -/
theorem isSpace_toLowerC (c : Char) : isSpace (toLowerC c) = isSpace c := by
  rw [Bool.eq_iff_iff]
  simp only [isSpace, Bool.or_eq_true, beq_iff_eq, toLowerC_toNat]
  split <;> omega

/-- Whitespace splitting commutes with lower-casing. -/
theorem splitWs_lower (s : Str) : splitWs (lower s) = (splitWs s).map lower := by
  induction s using splitWs.induct with
  | case1 => simp [lower, splitWs]
  | case2 c cs hsp ih =>
    have hsp' : isSpace (toLowerC c) = true := by rw [isSpace_toLowerC]; exact hsp
    simp only [lower, List.map_cons] at ih ⊢
    rw [splitWs, if_pos hsp', splitWs, if_pos hsp]
    exact ih
  | case3 c cs hsp ih =>
    have hsp' : ¬ isSpace (toLowerC c) = true := by rw [isSpace_toLowerC]; exact hsp
    have hfun : ((fun d => !isSpace d) ∘ toLowerC) = (fun d => !isSpace d) := by
      funext d
      simp [isSpace_toLowerC]
    simp only [lower] at ih ⊢
    rw [List.map_cons, splitWs, if_neg hsp', splitWs, if_neg hsp,
      List.takeWhile_map, List.dropWhile_map, hfun, ih]
    simp [lower]

/-- A left fold that only accumulates additions is the starting value plus
the sum of the per-element contributions. -/
theorem foldl_add_eq_sum (f : Str → ℚ) (l : List Str) (a : ℚ) :
    l.foldl (fun acc tok => acc + f tok) a = a + (l.map f).sum := by
  induction l generalizing a with
  | nil => simp
  | cons x xs ih =>
    simp only [List.foldl_cons, List.map_cons, List.sum_cons, ih]
    ring

/-- The token loop body of `scoreRecord` adds a per-token contribution to
the accumulator. -/
theorem scoreBody_eq (r : MemoryRecord) (text : Str) :
    (fun (acc : ℚ) (tok : Str) =>
        let withHits := acc + (countOccs tok text : ℚ) * 5
        let withTag := if r.tags.any (fun t => lower t == tok) then withHits + 8 else withHits
        if r.keywords.any (fun k => k == tok) then withTag + 6 else withTag)
      = fun (acc : ℚ) (tok : Str) =>
        acc + ((countOccs tok text : ℚ) * 5 +
          (if r.tags.any (fun t => lower t == tok) then 8 else 0) +
          (if r.keywords.any (fun k => k == tok) then 6 else 0)) := by
  funext acc tok
  dsimp only
  split <;> split <;> ring

/-- The per-token contribution computed by the code on the lower-cased
token is the spec's per-token contribution. -/
theorem codeToken_eq_specToken (r : MemoryRecord) (tok : Str) :
    (countOccs (lower tok) (lower r.text) : ℚ) * 5 +
      (if r.tags.any (fun t => lower t == lower tok) then 8 else 0) +
      (if r.keywords.any (fun k => k == lower tok) then 6 else 0)
    = specTokenPoints r tok := by
  unfold specTokenPoints
  have htag : (r.tags.any (fun t => lower t == lower tok) = true)
      ↔ ∃ t ∈ r.tags, lower t = lower tok := by
    simp [List.any_eq_true]
  have hkw : (r.keywords.any (fun k => k == lower tok) = true)
      ↔ lower tok ∈ r.keywords := by
    simp [List.any_eq_true]
  rw [if_congr htag rfl rfl, if_congr hkw rfl rfl]

/-- C7: the relevance score computed by `scoreRecord` equals the spec
formula (sum of per-token text/tag/keyword contributions plus the recency
bonus, or 0 for an empty trimmed query) and is never negative. -/
theorem c7_score_matches_spec (now : Int) (r : MemoryRecord) (query : Str) :
    scoreRecord now r query = specScore now r query ∧
    0 ≤ scoreRecord now r query := by
  have hmain : scoreRecord now r query = specScore now r query := by
    unfold scoreRecord specScore
    by_cases hq : trimStr query = []
    · simp [hq, lower]
    · have hq' : ¬ lower (trimStr query) = [] := by simp [lower, hq]
      rw [if_neg hq', if_neg hq]
      dsimp only
      rw [splitWs_lower, scoreBody_eq r (lower r.text),
        foldl_add_eq_sum, List.map_map, zero_add]
      have : ((fun tok => (countOccs tok (lower r.text) : ℚ) * 5 +
            (if r.tags.any (fun t => lower t == tok) then 8 else 0) +
            (if r.keywords.any (fun k => k == tok) then 6 else 0)) ∘ lower)
          = specTokenPoints r := by
        funext tok
        exact codeToken_eq_specToken r tok
      rw [this]
  refine ⟨hmain, ?_⟩
  rw [hmain]
  unfold specScore
  split
  · exact le_refl 0
  · apply add_nonneg
    · apply List.sum_nonneg
      intro x hx
      obtain ⟨tok, _, rfl⟩ := List.mem_map.mp hx
      unfold specTokenPoints
      apply add_nonneg
      apply add_nonneg
      · positivity
      · split <;> norm_num
      · split <;> norm_num
    · unfold recencyBonus
      exact le_max_left 0 _

/-- A map whose function fixes every element of the list is the identity. -/
theorem map_eq_self_of_fixed {α : Type} (f : α → α) (l : List α)
    (h : ∀ x ∈ l, f x = x) : l.map f = l := by
  induction l with
  | nil => rfl
  | cons x xs ih =>
    simp only [List.map_cons, h x (List.mem_cons_self x xs),
      ih (fun y hy => h y (List.mem_cons_of_mem _ hy))]

/-- A kept, non-whitespace character of the extractor's alphabet is already
lower-case: `toLowerC` fixes it. -/
theorem toLowerC_fixed_of_keep (c : Char) (h1 : keepChar c = true)
    (h2 : isSpace c = false) : toLowerC c = c := by
  have h1' : (97 ≤ c.toNat ∧ c.toNat ≤ 122) ∨ (48 ≤ c.toNat ∧ c.toNat ≤ 57) ∨
      isSpace c = true ∨ c.toNat = 45 := by
    simpa [keepChar, Bool.or_eq_true, Bool.and_eq_true, decide_eq_true_eq,
      beq_iff_eq, or_assoc] using h1
  have hno : ¬ (65 ≤ c.toNat ∧ c.toNat ≤ 90) := by
    rcases h1' with h | h | h | h
    · omega
    · omega
    · rw [h2] at h
      exact absurd h (by simp)
    · omega
  unfold toLowerC
  exact if_neg hno

/-- Every character of every word produced by `splitWs` comes from the
input and is not whitespace. -/
theorem splitWs_chars (s : Str) :
    ∀ w ∈ splitWs s, ∀ c ∈ w, c ∈ s ∧ isSpace c = false := by
  induction s using splitWs.induct with
  | case1 => simp [splitWs]
  | case2 c cs hsp ih =>
    rw [splitWs, if_pos hsp]
    intro w hw d hd
    obtain ⟨hmem, hns⟩ := ih w hw d hd
    exact ⟨List.mem_cons_of_mem _ hmem, hns⟩
  | case3 c cs hsp ih =>
    rw [splitWs, if_neg hsp]
    intro w hw d hd
    rcases List.mem_cons.mp hw with rfl | hw'
    · rcases List.mem_cons.mp hd with rfl | hd'
      · exact ⟨List.mem_cons_self _ _, by simpa using hsp⟩
      · refine ⟨List.mem_cons_of_mem _
          ((List.takeWhile_sublist _).subset hd'), ?_⟩
        have := List.mem_takeWhile_imp hd'
        simpa using this
    · obtain ⟨hmem, hns⟩ := ih w hw' d hd
      exact ⟨List.mem_cons_of_mem _ ((List.dropWhile_sublist _).subset hmem), hns⟩

/-- Properties of the filtered word list of `extractKeywords`: length > 2,
not a stop word, and every character is a kept non-whitespace character. -/
theorem extractWords_spec (text : Str) :
    ∀ w ∈ extractWords text, 2 < w.length ∧ STOP_WORDS.contains w = false ∧
      ∀ c ∈ w, keepChar c = true ∧ isSpace c = false := by
  intro w hw
  obtain ⟨hmem, hcond⟩ := List.mem_filter.mp hw
  simp only [Bool.and_eq_true, decide_eq_true_eq, Bool.not_eq_true'] at hcond
  refine ⟨hcond.1, hcond.2, ?_⟩
  intro c hc
  obtain ⟨hcs, hns⟩ := splitWs_chars _ w hmem c hc
  obtain ⟨d, _, hd⟩ := List.mem_map.mp hcs
  by_cases hkeep : keepChar d = true
  · rw [if_pos hkeep] at hd
    subst hd
    exact ⟨hkeep, hns⟩
  · rw [if_neg hkeep] at hd
    subst hd
    simp [isSpace] at hns

/-- Every pair produced by one `bumpFreq` step has the bumped key or a key
already present. -/
theorem bumpFreq_keys (w : Str) (acc : List (Str × Nat)) :
    ∀ p ∈ bumpFreq w acc, p.1 = w ∨ p.1 ∈ acc.map Prod.fst := by
  induction acc with
  | nil => simp [bumpFreq]
  | cons q qs ih =>
    obtain ⟨k, n⟩ := q
    intro p hp
    by_cases hk : k = w
    · rw [bumpFreq, if_pos hk] at hp
      rcases List.mem_cons.mp hp with rfl | hp'
      · exact Or.inl hk
      · refine Or.inr ?_
        simp only [List.map_cons]
        exact List.mem_cons_of_mem _ (List.mem_map_of_mem _ hp')
    · rw [bumpFreq, if_neg hk] at hp
      rcases List.mem_cons.mp hp with rfl | hp'
      · exact Or.inr (by simp)
      · rcases ih p hp' with h | h
        · exact Or.inl h
        · refine Or.inr ?_
          simp only [List.map_cons]
          exact List.mem_cons_of_mem _ h

/-- Every key of the frequency map is one of the counted words. -/
theorem freqOf_key_mem (ws : List Str) : ∀ p ∈ freqOf ws, p.1 ∈ ws := by
  have aux : ∀ (ts : List Str) (acc : List (Str × Nat)),
      ∀ p ∈ ts.foldl (fun a w => bumpFreq w a) acc,
        p.1 ∈ acc.map Prod.fst ∨ p.1 ∈ ts := by
    intro ts
    induction ts with
    | nil => intro acc p hp; exact Or.inl (List.mem_map_of_mem _ hp)
    | cons w ws ih =>
      intro acc p hp
      rcases ih (bumpFreq w acc) p hp with h | h
      · obtain ⟨q, hq, hqe⟩ := List.mem_map.mp h
        rcases bumpFreq_keys w acc q hq with h' | h'
        · exact Or.inr (by simp [← hqe, h'])
        · exact Or.inl (by rw [← hqe]; exact h')
      · exact Or.inr (List.mem_cons_of_mem _ h)
  intro p hp
  rcases aux ws [] p hp with h | h
  · simp at h
  · exact h

/-- Every keyword returned by `extractKeywords` is one of the filtered
words. -/
theorem extractKeywords_sub (text : Str) :
    ∀ k ∈ extractKeywords text, k ∈ extractWords text := by
  intro k hk
  obtain ⟨e, he, rfl⟩ := List.mem_map.mp hk
  have h1 := List.mem_of_mem_take he
  rw [mem_sortDescBy] at h1
  exact freqOf_key_mem _ e h1

/-- `extractKeywords` returns at most 10 keywords. -/
theorem extractKeywords_len (text : Str) : (extractKeywords text).length ≤ 10 := by
  unfold extractKeywords
  simp [List.length_take]

/-- The normalized tag list has no duplicates, no empty strings, and each
tag is the trimmed, lower-cased form of an input tag. -/
theorem normalizeTags_spec (tags : List Str) :
    (normalizeTags tags).Nodup ∧
    ∀ t ∈ normalizeTags tags, t ≠ [] ∧ ∃ t0 ∈ tags, t = lower (trimStr t0) := by
  have aux : ∀ (ts : List Str) (acc : List Str), acc.Nodup →
      (ts.foldl (fun acc t =>
        let cleaned := lower (trimStr t)
        if cleaned = [] ∨ acc.contains cleaned then acc else acc ++ [cleaned]) acc).Nodup ∧
      ∀ t ∈ ts.foldl (fun acc t =>
        let cleaned := lower (trimStr t)
        if cleaned = [] ∨ acc.contains cleaned then acc else acc ++ [cleaned]) acc,
        t ∈ acc ∨ (t ≠ [] ∧ ∃ t0 ∈ ts, t = lower (trimStr t0)) := by
    intro ts
    induction ts with
    | nil => intro acc hacc; exact ⟨hacc, fun t ht => Or.inl ht⟩
    | cons t ts ih =>
      intro acc hacc
      simp only [List.foldl_cons]
      by_cases hcond : lower (trimStr t) = [] ∨ acc.contains (lower (trimStr t))
      · rw [if_pos hcond]
        obtain ⟨hnd, hmem⟩ := ih acc hacc
        refine ⟨hnd, fun x hx => ?_⟩
        rcases hmem x hx with h | ⟨hne, t0, ht0, he⟩
        · exact Or.inl h
        · exact Or.inr ⟨hne, t0, List.mem_cons_of_mem _ ht0, he⟩
      · rw [if_neg hcond]
        push_neg at hcond
        have hnotmem : lower (trimStr t) ∉ acc := by
          intro hmm
          exact absurd (List.elem_iff.mpr hmm) (by simpa using hcond.2)
        have hacc' : (acc ++ [lower (trimStr t)]).Nodup := by
          rw [List.nodup_append]
          exact ⟨hacc, List.nodup_singleton _, List.disjoint_singleton.mpr hnotmem⟩
        obtain ⟨hnd, hmem⟩ := ih (acc ++ [lower (trimStr t)]) hacc'
        refine ⟨hnd, fun x hx => ?_⟩
        rcases hmem x hx with h | ⟨hne, t0, ht0, he⟩
        · rcases List.mem_append.mp h with h' | h'
          · exact Or.inl h'
          · have : x = lower (trimStr t) := by simpa using h'
            exact Or.inr ⟨by rw [this]; exact hcond.1, t,
              List.mem_cons_self _ _, this⟩
        · exact Or.inr ⟨hne, t0, List.mem_cons_of_mem _ ht0, he⟩
  obtain ⟨hnd, hmem⟩ := aux tags [] List.nodup_nil
  refine ⟨hnd, fun t ht => ?_⟩
  rcases hmem t ht with h | h
  · simp at h
  · exact h

/-- C8: every record returned by a successful add satisfies the data-model
invariants: its text is the non-empty trimmed input; its tags contain no
duplicates and no empty strings and are the trimmed, lower-cased forms of
input tags; its keywords number at most 10 and are each lower-case, longer
than 2 characters, and not stop words; and it is not tombstoned. -/
theorem c8_add_invariants (now : Int) (newId : Str) (records : List MemoryRecord)
    (text : Str) (tags : List Str) (res : AddResult)
    (h : addMemory now newId records text tags = Except.ok res) :
    res.record.text = trimStr text ∧ res.record.text ≠ [] ∧
    res.record.tags.Nodup ∧
    (∀ t ∈ res.record.tags, t ≠ [] ∧ ∃ t0 ∈ tags, t = lower (trimStr t0)) ∧
    res.record.keywords.length ≤ 10 ∧
    (∀ k ∈ res.record.keywords, 2 < k.length ∧ lower k = k ∧
      STOP_WORDS.contains k = false) ∧
    res.record.deletedAt = none := by
  by_cases ht : trimStr text = []
  · rw [addMemory, if_pos ht] at h
    exact absurd h (by simp)
  · rw [addMemory, if_neg ht] at h
    dsimp only at h
    injection h with h2
    subst h2
    obtain ⟨hnd, htags⟩ := normalizeTags_spec tags
    refine ⟨rfl, ht, hnd, htags, extractKeywords_len _, ?_, rfl⟩
    intro k hk
    have hw := extractKeywords_sub _ k hk
    obtain ⟨hlen, hstop, hchars⟩ := extractWords_spec _ k hw
    refine ⟨hlen, ?_, hstop⟩
    exact map_eq_self_of_fixed _ k
      (fun c hc => toLowerC_fixed_of_keep c (hchars c hc).1 (hchars c hc).2)

/-- Witness for `c8_add_invariants` at a concrete add. -/
theorem c8_add_invariants_witness :
    addMemory 0 (("m1").toList) [] (("hello world").toList) [] = Except.ok addResW ∧
    (addResW.record.text = trimStr (("hello world").toList) ∧
      addResW.record.text ≠ [] ∧
      addResW.record.tags.Nodup ∧
      (∀ t ∈ addResW.record.tags, t ≠ [] ∧
        ∃ t0 ∈ ([] : List Str), t = lower (trimStr t0)) ∧
      addResW.record.keywords.length ≤ 10 ∧
      (∀ k ∈ addResW.record.keywords, 2 < k.length ∧ lower k = k ∧
        STOP_WORDS.contains k = false) ∧
      addResW.record.deletedAt = none) :=
  ⟨by with_unfolding_all decide,
    c8_add_invariants 0 (("m1").toList) [] (("hello world").toList) [] addResW
      (by with_unfolding_all decide)⟩

end CMS
